import Mathlib

/-
Verification development for the spectral-processing pipeline of
`Interactive_Parameter_Explorer.py`: peak detection (centroid and profile
mode), centroid calculation, multi-scan averaging onto a reference m/z
grid, inter-energy interpolation of intensities, and theoretical
fragment-ion calculation.

The Python code is shallowly embedded: machine floats are modelled by
exact rationals `ℚ`, numpy arrays by `List ℚ`, Python exceptions by
`Except PErr`, and the single observable mutation (the averager writing
the nested `filter string` through a shallow copy) by returning the
post-call value of the input list alongside the result.
-/

deriving instance DecidableEq for Except

/-- Python exception kinds raised on the embedded code paths:
`IndexError` (sequence index out of range), `ValueError` (numpy reduction on
an empty array, `int()` on a malformed string, out-of-range target energy),
`KeyError` (missing mass-table entry) and `PyteomicsError` (invalid modX
sequence or unknown ion type). -/
inductive PErr
  | indexError
  | valueError
  | keyError
  | pyteomicsError
deriving DecidableEq

/-- Sequential effectful map over a list, aborting at the first raised
exception — the shape of the Python loops that build one result per element. -/
def exceptMapList {α β : Type} (f : α → Except PErr β) : List α → Except PErr (List β)
  | [] => .ok []
  | a :: l =>
    match f a with
    | .error e => .error e
    | .ok b =>
      match exceptMapList f l with
      | .error e => .error e
      | .ok bs => .ok (b :: bs)

/-- Sequential effectful fold over a list, aborting at the first raised
exception — the shape of the Python loops that thread an accumulator. -/
def exceptFoldList {α β : Type} (f : β → α → Except PErr β) : β → List α → Except PErr β
  | d, [] => .ok d
  | d, a :: l =>
    match f d a with
    | .error e => .error e
    | .ok d2 => exceptFoldList f d2 l

/-- Python `int(...)` applied to a float value: truncation toward zero. -/
def pyInt (q : ℚ) : ℤ := if 0 ≤ q then ⌊q⌋ else ⌈q⌉

/-- Python slice `l[:s]` with a possibly negative bound `s`. -/
def pyTake {α : Type} (l : List α) (s : ℤ) : List α :=
  if 0 ≤ s then l.take s.toNat else l.take (l.length - (-s).toNat)

/-- Python slice `l[s:]` with a possibly negative start `s`. -/
def pySliceFrom {α : Type} (l : List α) (s : ℤ) : List α :=
  if 0 ≤ s then l.drop s.toNat else l.drop (l.length - (-s).toNat)

/-- Walk of `np.interp` along consecutive sample points, carrying the previous
point; the query `q` is already known to satisfy `fst p ≤ q` arriving here.
Out of range on the right yields the `right=0` fill value. -/
def npInterpGo (q : ℚ) : ℚ × ℚ → List (ℚ × ℚ) → ℚ
  | (xp, yp), [] => if xp < q then 0 else yp
  | (xp, yp), (xn, yn) :: rest =>
    if q ≤ xn then yp + (yn - yp) * (q - xp) / (xn - xp)
    else npInterpGo q (xn, yn) rest

/-- Models `np.interp(q, xs, ys, left=0, right=0)`: piecewise-linear
interpolation of the sample points `pts` (assumed sorted by first component,
as the callers' m/z and energy axes are), with fill value `0` strictly
outside the sampled range. An empty sample list is guarded by the callers
(numpy raises there before interpolating). -/
def np_interp (q : ℚ) : List (ℚ × ℚ) → ℚ
  | [] => 0
  | (x0, y0) :: rest => if q < x0 then 0 else npInterpGo q (x0, y0) rest

/-- Models `np.arange(start, stop, step)` for the positive steps produced by
the averager (the minimum gap of a strictly increasing unique m/z axis, or a
caller-supplied positive bin width). -/
def np_arange (start stop step : ℚ) : List ℚ :=
  if 0 < step then
    (List.range (⌈(stop - start) / step⌉).toNat).map (fun k => start + (k : ℚ) * step)
  else []

/-- Models `np.unique`: ascending sort followed by removal of adjacent
duplicates. -/
def np_unique (l : List ℚ) : List ℚ :=
  (l.insertionSort (· ≤ ·)).destutter (· ≠ ·)

/-- Models `np.min(np.diff(l))`: `none` when `l` has fewer than two entries
(numpy raises a `ValueError` on the empty reduction there). -/
def np_min_diff (l : List ℚ) : Option ℚ :=
  match List.zipWith (fun a b => b - a) l l.tail with
  | [] => none
  | d :: ds => some (ds.foldl min d)

/-- Models `np.max(l)`: `none` on the empty array (numpy raises
`ValueError`). -/
def np_max (l : List ℚ) : Option ℚ :=
  match l with
  | [] => none
  | a :: as => some (as.foldl max a)

/-- Nested scan metadata of a scan record: the fields of
`scan['scanList']['scan'][0]` (and its scan-window list) that the pipeline
reads or writes. -/
structure ScanMeta where
  scan_start_time : ℚ
  filter_string : String
  scan_window_lower : ℚ
  scan_window_upper : ℚ
deriving DecidableEq

/-- A scan record / spectrum: parallel m/z and intensity arrays plus the
nested scan metadata object. -/
structure Spectrum where
  mz : List ℚ
  intensity : List ℚ
  scanList : ScanMeta
deriving DecidableEq

/-- Python `"{:.2f}".format(q)`: fixed-point rendering with two decimals. -/
def fmt2 (q : ℚ) : String :=
  let n : ℤ := round (q * 100)
  let sign := if n < 0 then "-" else ""
  let ip := n.natAbs / 100
  let fp := n.natAbs % 100
  sign ++ toString ip ++ "." ++ (if fp < 10 then "0" ++ toString fp else toString fp)

/-- The averager's label `"AV: {:.2f}-{:.2f}; {}".format(t0, t1, fs)`;
`fs = None` renders as `"None"`. -/
def avgFilterString (t0 t1 : ℚ) (fs : Option String) : String :=
  "AV: " ++ fmt2 t0 ++ "-" ++ fmt2 t1 ++ "; " ++ (match fs with | none => "None" | some s => s)

/-- Embedding of `average_spectra(spectra, bin_width, filter_string)`.

The reference grid is `np.arange` over the first spectrum's scan-window
limits at `bin_width` (defaulting to the minimum gap of the first spectrum's
unique m/z values); every spectrum is interpolated onto the grid with fill
value 0 outside its own m/z range, the interpolations are accumulated and
divided by the number of spectra.

Error cases of the source: `spectra[0]` on an empty list raises
`IndexError`; `np.min` of an empty diff (fewer than two unique reference m/z
values) and `np.interp` against an empty m/z axis raise `ValueError`.

The source builds the result via `spectra[0].copy()` — a shallow `dict`
copy — and then assigns the nested `['scanList']['scan'][0]['filter string']`,
which writes through the shared nested object into `spectra[0]` itself. The
embedding makes this heap effect explicit by returning, alongside the
averaged spectrum, the post-call value of the input list: the head's nested
metadata carries the new filter string, the tail is untouched. -/
def average_spectra (spectra : List Spectrum) (bin_width : Option ℚ)
    (filter_string : Option String) : Except PErr (Spectrum × List Spectrum) :=
  match spectra with
  | [] => .error .indexError
  | s0 :: rest =>
    let reference_scan := np_unique s0.mz
    let bwE : Except PErr ℚ :=
      match bin_width with
      | some b => .ok b
      | none =>
        match np_min_diff reference_scan with
        | some d => .ok d
        | none => .error .valueError
    match bwE with
    | .error e => .error e
    | .ok bw =>
      let reference_mz := np_arange s0.scanList.scan_window_lower s0.scanList.scan_window_upper bw
      if (s0 :: rest).any (fun s => s.mz.isEmpty) then .error .valueError
      else
        let merge0 := (s0 :: rest).foldl
          (fun acc scan =>
            List.zipWith (· + ·) acc
              (reference_mz.map (fun q => np_interp q (scan.mz.zip scan.intensity))))
          (reference_mz.map (fun _ => (0 : ℚ)))
        let merge_intensity := merge0.map (fun v => v / (((s0 :: rest).length : ℚ)))
        let sLast := ((s0 :: rest).getLast?).getD s0
        let newMeta : ScanMeta :=
          { s0.scanList with
            filter_string :=
              avgFilterString s0.scanList.scan_start_time sLast.scanList.scan_start_time filter_string }
        let avg : Spectrum := { mz := reference_mz, intensity := merge_intensity, scanList := newMeta }
        .ok (avg, { s0 with scanList := newMeta } :: rest)

/-- Association-list update modelling `interpolated_spectra[t].append(v)`. -/
def dictAppend (d : List (ℚ × List ℚ)) (k : ℚ) (v : ℚ) : List (ℚ × List ℚ) :=
  d.map (fun kv => if kv.1 = k then (kv.1, kv.2 ++ [v]) else kv)

/-- Inner loop of `interpolate_spectra` over the requested target energies at
one m/z bin: the source evaluates `energies[0]` and `energies[-1]` (an
`IndexError` on an empty energy list), raises `ValueError` for a target
strictly outside that span, and otherwise appends the interpolated intensity
to the target's entry. -/
def targetLoop (energies intensities : List ℚ) :
    List (ℚ × List ℚ) → List ℚ → Except PErr (List (ℚ × List ℚ))
  | d, [] => .ok d
  | d, t :: ts =>
    match energies.head?, energies.getLast? with
    | some e0, some eL =>
      if t < e0 ∨ eL < t then .error .valueError
      else targetLoop energies intensities (dictAppend d t (np_interp t (energies.zip intensities))) ts
    | _, _ => .error .indexError

/-- Gathers `[intensity_arrays[j][i] for j in range(len(energies))]`, raising
`IndexError` when an index is out of range. -/
def buildIntensities (arrays : List (List ℚ)) (nE i : ℕ) : Except PErr (List ℚ) :=
  exceptMapList (fun j =>
    match arrays[j]? with
    | none => .error .indexError
    | some arr =>
      match arr[i]? with
      | none => .error .indexError
      | some v => .ok v) (List.range nE)

/-- Embedding of `interpolate_spectra(spectra, target_energies, energies)`:
for every bin index of the first intensity array, the (energy, intensity)
curve across the known energies is built and each requested target energy is
linearly interpolated against it; a target strictly below `energies[0]` or
strictly above `energies[-1]` raises `ValueError`. The result dictionary maps
each requested target energy to its per-bin interpolated intensities. -/
def interpolate_spectra (spectra : List Spectrum) (target_energies energies : List ℚ) :
    Except PErr (List (ℚ × List ℚ)) :=
  match (spectra.map (fun s => s.intensity)).head? with
  | none => .error .indexError
  | some arr0 =>
    exceptFoldList
      (fun d i =>
        match buildIntensities (spectra.map (fun s => s.intensity)) energies.length i with
        | .error e => .error e
        | .ok intensities => targetLoop energies intensities d target_energies)
      (target_energies.eraseDups.map (fun t => (t, ([] : List ℚ))))
      (List.range arr0.length)

/-- ModX tokenizer behind `pyteomics.parser.parse`: a residue token is a run
of lowercase modification letters followed by one uppercase residue letter;
any other character makes the sequence invalid (`PyteomicsError`). The
accumulator carries the pending lowercase run. -/
def parseGo : List Char → List Char → Except PErr (List String)
  | acc, [] => if acc.isEmpty then .ok [] else .error .pyteomicsError
  | acc, c :: rest =>
    if c.isLower then parseGo (acc ++ [c]) rest
    else if c.isUpper then
      match parseGo [] rest with
      | .ok toks => .ok (String.mk (acc ++ [c]) :: toks)
      | .error e => .error e
    else .error .pyteomicsError

/-- Embedding of `parser.parse(sequence)`: splits a peptide string into its
modX residue tokens, failing on an empty or malformed sequence. -/
def parse (s : String) : Except PErr (List String) :=
  if s.data.isEmpty then .error .pyteomicsError else parseGo [] s.data

/-- Python `''.join(tokens)`. -/
def pyJoin (toks : List String) : String :=
  String.mk ((toks.map String.data).flatten)

/-- Monoisotopic hydrogen mass from the element table. -/
def hMass : ℚ := 1.00782503207

/-- Monoisotopic carbon mass from the element table. -/
def cMass : ℚ := 12

/-- Monoisotopic nitrogen mass from the element table. -/
def nMass : ℚ := 14.0030740048

/-- Monoisotopic oxygen mass from the element table. -/
def oMass : ℚ := 15.9949146196

/-- Proton mass from the element table. -/
def protonMass : ℚ := 1.00727646677

/-- The standard monoisotopic residue mass table `mass.std_aa_mass`. -/
def aaLetterMass : Char → Option ℚ
  | 'G' => some 57.02146
  | 'A' => some 71.03711
  | 'S' => some 87.03203
  | 'P' => some 97.05276
  | 'V' => some 99.06841
  | 'T' => some 101.04768
  | 'C' => some 103.00919
  | 'L' => some 113.08406
  | 'I' => some 113.08406
  | 'J' => some 113.08406
  | 'N' => some 114.04293
  | 'D' => some 115.02694
  | 'Q' => some 128.05858
  | 'K' => some 128.09496
  | 'E' => some 129.04259
  | 'M' => some 131.04049
  | 'H' => some 137.05891
  | 'F' => some 147.06841
  | 'U' => some 150.95364
  | 'R' => some 156.10111
  | 'Y' => some 163.06333
  | 'W' => some 186.07931
  | 'O' => some 237.14773
  | _ => none

/-- The modification masses the script installs into `aa_mass`:
phosphorylation `p`, oxidation `ox`, deamidation `d`, amidation `am`. -/
def modMass : String → Option ℚ
  | "p" => some 79.966331
  | "ox" => some 15.994915
  | "d" => some 0.984016
  | "am" => some (-0.984016)
  | _ => none

/-- Mass of one modX token under `aa_mass`: a bare residue letter, or a
modification run added to its residue letter. -/
def tokenMass (t : String) : Option ℚ :=
  match t.data.getLast? with
  | none => none
  | some u =>
    match aaLetterMass u with
    | none => none
    | some mu =>
      if t.data.dropLast.isEmpty then some mu
      else (modMass (String.mk t.data.dropLast)).map (fun mm => mm + mu)

/-- Composition offset of `mass.std_ion_comp` for each supported ion type,
expressed through the element masses (`b = -H2O`, `a = b - CO`,
`c = b + NH3`, `x = b + CO2`, `y = 0`, `z = b + O - NH`). -/
def ionComp : Char → Option ℚ
  | 'M' => some 0
  | 'a' => some (-(2 * hMass) - 2 * oMass - cMass)
  | 'b' => some (-(2 * hMass) - oMass)
  | 'c' => some (-(2 * hMass) - oMass + (nMass + 3 * hMass))
  | 'x' => some (-(2 * hMass) - oMass + (cMass + 2 * oMass))
  | 'y' => some 0
  | 'z' => some (-(2 * hMass) - oMass + (oMass - nMass - hMass))
  | _ => none

/-- Embedding of `mass.fast_mass2(seq, ion_type, charge, aa_mass)`: the
sequence is re-parsed into modX tokens, the token masses and a water mass are
summed, the ion-type composition offset added, and for a nonzero charge the
protonated mass is divided by the charge (Python's `if charge:` skips the
division at charge 0). Unknown residues or ion types raise. -/
def fast_mass2 (seqStr : String) (ion_type : Char) (charge : ℤ) : Except PErr ℚ :=
  match parse seqStr with
  | .error e => .error e
  | .ok toks =>
    match exceptMapList (fun t =>
        match tokenMass t with
        | some m => Except.ok m
        | none => Except.error PErr.keyError) toks with
    | .error e => .error e
    | .ok masses =>
      match ionComp ion_type with
      | none => .error .pyteomicsError
      | some icomp =>
        let neutral := masses.sum + 2 * hMass + oMass + icomp
        .ok (if charge = 0 then neutral else (neutral + protonMass * (charge : ℚ)) / (charge : ℚ))

/-- A theoretical fragment-ion descriptor as assembled by `get_fragments`. -/
structure Fragment where
  seq : String
  ion : String
  mz : ℚ
  type : Char
deriving DecidableEq

/-- Value of one decimal digit character. -/
def digitVal (c : Char) : Option ℕ :=
  if '0' ≤ c ∧ c ≤ '9' then some (c.toNat - '0'.toNat) else none

/-- Accumulating decimal reader over characters. -/
def readNatGo : List Char → ℕ → Option ℕ
  | [], acc => some acc
  | c :: rest, acc =>
    match digitVal c with
    | some d => readNatGo rest (10 * acc + d)
    | none => none

/-- Python `int(str)` on the decimal strings the script builds: an optional
minus sign followed by at least one digit; anything else raises
`ValueError` (modelled as `none`). -/
def pyIntParse (cs : List Char) : Option ℤ :=
  match cs with
  | [] => none
  | '-' :: rest => if rest.isEmpty then none else (readNatGo rest 0).map (fun n => -(n : ℤ))
  | _ => (readNatGo cs 0).map (fun n => (n : ℤ))

/-- Processing of one requested ion string inside `get_fragments`:
`ion[0]` is the type (an `IndexError` on an empty string), `int(ion[1:])` the
position (a `ValueError` when malformed); N-terminal types slice the first
`pos` residues, every other type slices `_sequence[-pos:]`; the label is
`type + pos` for a/b/c, `type + (len - pos + 1)` for y/z/x, and the raw ion
string otherwise. -/
def processIon (toks : List String) (charge : ℤ) (ion : String) : Except PErr Fragment :=
  match ion.data with
  | [] => .error .indexError
  | c :: rest =>
    match pyIntParse rest with
    | none => .error .valueError
    | some pos =>
      let seqToks := if c = 'a' ∨ c = 'b' ∨ c = 'c' then pyTake toks pos else pySliceFrom toks (-pos)
      let seqStr := pyJoin seqToks
      match fast_mass2 seqStr c charge with
      | .error e => .error e
      | .ok m =>
        let label :=
          if c = 'a' ∨ c = 'b' ∨ c = 'c' then String.mk [c] ++ toString pos
          else if c = 'y' ∨ c = 'z' ∨ c = 'x' then
            String.mk [c] ++ toString ((toks.length : ℤ) - pos + 1)
          else ion
        .ok { seq := seqStr, ion := label, mz := m, type := c }

/-- Embedding of `get_fragments(sequence, fragment_ions, selected_charge_state)`:
the sequence is parsed once, then every requested ion string is processed in
order. -/
def get_fragments (sequence : String) (fragment_ions : List String)
    (selected_charge_state : ℤ) : Except PErr (List Fragment) :=
  match parse sequence with
  | .error e => .error e
  | .ok toks => exceptMapList (processIon toks selected_charge_state) fragment_ions

/-- Plateau scan inside `_local_maxima_1d`: advances `ia` while it stays left
of `iMax` and the signal keeps the candidate value `v`. The fuel bounds the
loop; callers pass more fuel than the remaining index range. -/
def lmAhead (x : List ℚ) (v : ℚ) (iMax : ℕ) : ℕ → ℕ → ℕ
  | 0, ia => ia
  | f + 1, ia => if ia < iMax ∧ x.getD ia 0 = v then lmAhead x v iMax f (ia + 1) else ia

/-- Main loop of `scipy.signal._local_maxima_1d`: scans `i` from 1 to
`iMax - 1`; on a strict ascent it looks past any plateau and, if the signal
then strictly descends, records (midpoint, left edge, right edge) and resumes
after the plateau. -/
def lmGo (x : List ℚ) (iMax : ℕ) : ℕ → ℕ → List (ℕ × ℕ × ℕ)
  | 0, _ => []
  | f + 1, i =>
    if i < iMax then
      if x.getD (i - 1) 0 < x.getD i 0 then
        let ia := lmAhead x (x.getD i 0) iMax (x.length + 2) (i + 1)
        if x.getD ia 0 < x.getD i 0 then
          ((i + (ia - 1)) / 2, i, ia - 1) :: lmGo x iMax f (ia + 1)
        else lmGo x iMax f (i + 1)
      else lmGo x iMax f (i + 1)
    else []

/-- Embedding of `scipy.signal._local_maxima_1d(x)`: the strict local maxima
of `x` (plateau midpoints), with their plateau edges. -/
def local_maxima_1d (x : List ℚ) : List (ℕ × ℕ × ℕ) :=
  lmGo x (x.length - 1) (x.length + 2) 1

/-- Leftward removal sweep of `_select_by_peak_distance`: starting at `k` and
walking down, peaks closer than `distC` to peak `j` are marked not kept. -/
def smearLeft (peaks : List ℕ) (distC : ℤ) (j : ℕ) : ℕ → ℕ → List Bool → List Bool
  | 0, _, keep => keep
  | f + 1, k, keep =>
    if ((peaks.getD j 0 : ℤ) - (peaks.getD k 0 : ℤ)) < distC then
      if k = 0 then keep.set k false
      else smearLeft peaks distC j f (k - 1) (keep.set k false)
    else keep

/-- Guarded entry to `smearLeft`: for `j = 0` the Python loop starts at
`k = -1` and never runs. -/
def smearLeftFrom (peaks : List ℕ) (distC : ℤ) (j : ℕ) (keep : List Bool) : List Bool :=
  match j with
  | 0 => keep
  | jj + 1 => smearLeft peaks distC (jj + 1) (jj + 1) jj keep

/-- Rightward removal sweep of `_select_by_peak_distance`. -/
def smearRight (peaks : List ℕ) (n : ℕ) (distC : ℤ) (j : ℕ) : ℕ → ℕ → List Bool → List Bool
  | 0, _, keep => keep
  | f + 1, k, keep =>
    if k < n ∧ ((peaks.getD k 0 : ℤ) - (peaks.getD j 0 : ℤ)) < distC then
      smearRight peaks n distC j f (k + 1) (keep.set k false)
    else keep

/-- Embedding of `scipy.signal._select_by_peak_distance(peaks, priority,
distance)`: peaks are visited from highest to lowest priority (a stable
ascending argsort, reversed); each still-kept peak removes every neighbour
closer than `ceil(distance)` on both sides. -/
def select_by_peak_distance (peaks : List ℕ) (priority : List ℚ) (distance : ℚ) : List Bool :=
  let n := peaks.length
  let distC : ℤ := ⌈distance⌉
  let order := List.insertionSort (fun a b => priority.getD a 0 ≤ priority.getD b 0) (List.range n)
  (order.reverse).foldl
    (fun keep j =>
      if keep.getD j true = false then keep
      else smearRight peaks n distC j (n + 2) (j + 1) (smearLeftFrom peaks distC j keep))
    (List.replicate n true)

/-- Leftward minimum search of `_peak_prominences`: walks `i` down while the
signal stays at or below the peak value `v`, tracking the running minimum and
its index (the left base). -/
def promWalkLeft (x : List ℚ) (v : ℚ) : ℕ → ℤ → ℚ → ℕ → ℚ × ℕ
  | 0, _, m, b => (m, b)
  | f + 1, i, m, b =>
    if 0 ≤ i ∧ x.getD i.toNat 0 ≤ v then
      if x.getD i.toNat 0 < m then promWalkLeft x v f (i - 1) (x.getD i.toNat 0) i.toNat
      else promWalkLeft x v f (i - 1) m b
    else (m, b)

/-- Rightward minimum search of `_peak_prominences`. -/
def promWalkRight (x : List ℚ) (v : ℚ) (iMax : ℕ) : ℕ → ℕ → ℚ → ℕ → ℚ × ℕ
  | 0, _, m, b => (m, b)
  | f + 1, i, m, b =>
    if i ≤ iMax ∧ x.getD i 0 ≤ v then
      if x.getD i 0 < m then promWalkRight x v iMax f (i + 1) (x.getD i 0) i
      else promWalkRight x v iMax f (i + 1) m b
    else (m, b)

/-- Embedding of one iteration of `scipy.signal._peak_prominences` with the
whole signal as window (`wlen = -1`): returns (prominence, left base, right
base) of peak `p`. -/
def peak_prominence_at (x : List ℚ) (p : ℕ) : ℚ × ℕ × ℕ :=
  let v := x.getD p 0
  let left := promWalkLeft x v (x.length + 2) (p : ℤ) v p
  let right := promWalkRight x v (x.length - 1) (x.length + 2) p v p
  (v - max left.1 right.1, left.2, right.2)

/-- Leftward crossing search of `_peak_widths`: walks down while the signal
stays strictly above the evaluation height, stopping at the left base. -/
def widthWalkLeft (x : List ℚ) (h : ℚ) (iMinB : ℕ) : ℕ → ℕ → ℕ
  | 0, i => i
  | f + 1, i => if iMinB < i ∧ h < x.getD i 0 then widthWalkLeft x h iMinB f (i - 1) else i

/-- Rightward crossing search of `_peak_widths`. -/
def widthWalkRight (x : List ℚ) (h : ℚ) (iMaxB : ℕ) : ℕ → ℕ → ℕ
  | 0, i => i
  | f + 1, i => if i < iMaxB ∧ h < x.getD i 0 then widthWalkRight x h iMaxB f (i + 1) else i

/-- Embedding of one iteration of `scipy.signal._peak_widths` at the default
`rel_height = 0.5`: returns (width, width height, left ip, right ip) of peak
`p` with prominence data `(prom, lb, rb)`; the intersection points are
linearly interpolated where the signal crosses the evaluation height. -/
def peak_width_at (x : List ℚ) (p : ℕ) (prom : ℚ) (lb rb : ℕ) : ℚ × ℚ × ℚ × ℚ :=
  let height := x.getD p 0 - prom * (1 / 2)
  let il := widthWalkLeft x height lb (x.length + 2) p
  let left_ip : ℚ :=
    if x.getD il 0 < height then
      (il : ℚ) + (height - x.getD il 0) / (x.getD (il + 1) 0 - x.getD il 0)
    else (il : ℚ)
  let ir := widthWalkRight x height rb (x.length + 2) p
  let right_ip : ℚ :=
    if x.getD ir 0 < height then
      (ir : ℚ) - (height - x.getD ir 0) / (x.getD (ir - 1) 0 - x.getD ir 0)
    else (ir : ℚ)
  (right_ip - left_ip, height, left_ip, right_ip)

/-- The `properties` dictionary of `find_peaks` as consumed by the script:
per-peak heights, prominence data and width data (including the half-height
intersection points used for centroiding). -/
structure FPProps where
  peak_heights : List ℚ
  prominences : List ℚ
  left_bases : List ℕ
  right_bases : List ℕ
  widths : List ℚ
  width_heights : List ℚ
  left_ips : List ℚ
  right_ips : List ℚ
deriving DecidableEq

/-- Boolean-mask selection `arr[keep]`. -/
def filterByKeep {α : Type} (l : List α) (keep : List Bool) : List α :=
  ((l.zip keep).filter (fun pk => pk.2)).map (fun pk => pk.1)

/-- Embedding of `scipy.signal.find_peaks(x, height, prominence, width,
distance)` with scalar minimal bounds: a distance below 1 raises; local
maxima are filtered by height (inclusive lower bound), thinned by minimal
horizontal distance, filtered by minimal prominence and finally by minimal
width, the property arrays being filtered alongside. -/
def find_peaks (x : List ℚ) (height prominence width distance : ℚ) :
    Except PErr (List ℕ × FPProps) :=
  if distance < 1 then .error .valueError
  else
    let peaks0 := (local_maxima_1d x).map (fun t => t.1)
    let peaks1 := peaks0.filter (fun p => height ≤ x.getD p 0)
    let keep := select_by_peak_distance peaks1 (peaks1.map (fun p => x.getD p 0)) distance
    let peaks2 := filterByKeep peaks1 keep
    let proms := peaks2.map (fun p => (p, peak_prominence_at x p))
    let proms2 := proms.filter (fun q => prominence ≤ q.2.1)
    let withW := proms2.map (fun q => (q, peak_width_at x q.1 q.2.1 q.2.2.1 q.2.2.2))
    let withW2 := withW.filter (fun q => width ≤ q.2.1)
    let peaksF := withW2.map (fun q => q.1.1)
    .ok (peaksF,
      { peak_heights := peaksF.map (fun p => x.getD p 0)
        prominences := withW2.map (fun q => q.1.2.1)
        left_bases := withW2.map (fun q => q.1.2.2.1)
        right_bases := withW2.map (fun q => q.1.2.2.2)
        widths := withW2.map (fun q => q.2.1)
        width_heights := withW2.map (fun q => q.2.2.1)
        left_ips := withW2.map (fun q => q.2.2.2.1)
        right_ips := withW2.map (fun q => q.2.2.2.2) })

/-- Result of `peak_detection`: in centroid mode only peak indices, in
profile mode indices plus the `find_peaks` properties. -/
inductive DetectResult
  | centroided (peaks : List ℕ)
  | profile (peaks : List ℕ) (props : FPProps)
deriving DecidableEq

/-- Embedding of `peak_detection(spectrum, threshold, distance, prominence,
width, centroid)`: the relative threshold is `max(intensity) * threshold/100`
(the `max` raises `ValueError` on an empty intensity array); centroid mode
returns `np.where(intensity > relative_threshold)`, profile mode delegates to
`find_peaks`. -/
def peak_detection (spectrum : Spectrum) (threshold distance prominence width : ℚ)
    (centroid : Bool) : Except PErr DetectResult :=
  match np_max spectrum.intensity with
  | none => .error .valueError
  | some m =>
    let relative_threshold := m * (threshold / 100)
    if centroid then
      .ok (.centroided ((List.range spectrum.intensity.length).filter
        (fun i => relative_threshold < spectrum.intensity.getD i 0)))
    else
      match find_peaks spectrum.intensity relative_threshold prominence width distance with
      | .error e => .error e
      | .ok pr => .ok (.profile pr.1 pr.2)

/-- Python `range(l, r + 1)`. -/
def idxRange (l r : ℕ) : List ℕ := List.range' l (r + 1 - l)

/-- One iteration of the `return_centroid` loop: the `left_ips`/`right_ips`
entries are truncated with `int()`, the m/z and intensity arrays are sliced
over the inclusive bounded index range (numpy fancy indexing raises
`IndexError` out of bounds), and the intensity-weighted mean is formed.
The `Option ℚ` result models the float value: `none` stands for the
non-finite sentinel (NaN) that numpy produces, without raising, when the
bounded intensity sum is zero. -/
def centroidAt (sp : Spectrum) (props : FPProps) (i : ℕ) : Except PErr (Option ℚ) :=
  match props.left_ips[i]?, props.right_ips[i]? with
  | some lip, some rip =>
    let l := (pyInt lip).toNat
    let r := (pyInt rip).toNat
    if (idxRange l r).all (fun k => decide (k < sp.mz.length ∧ k < sp.intensity.length)) then
      let mz_range := (idxRange l r).map (fun k => sp.mz.getD k 0)
      let intensity_range := (idxRange l r).map (fun k => sp.intensity.getD k 0)
      let den := intensity_range.sum
      let num := (List.zipWith (· * ·) mz_range intensity_range).sum
      .ok (if den = 0 then none else some (num / den))
    else .error .indexError
  | _, _ => .error .indexError

/-- Embedding of `return_centroid(spectrum, peaks, properties)`: one centroid
per detected peak, computed from the peak's bounded index range. -/
def return_centroid (sp : Spectrum) (peaks : List ℕ) (props : FPProps) :
    Except PErr (List (Option ℚ)) :=
  exceptMapList (centroidAt sp props) (List.range peaks.length)

/-- Success of `exceptMapList`: if every element maps to a success, the whole
traversal succeeds and preserves the length. -/
theorem exceptMapList_ok_of_all {α β : Type} (f : α → Except PErr β) :
    ∀ (l : List α), (∀ a ∈ l, ∃ b, f a = .ok b) →
      ∃ bs, exceptMapList f l = .ok bs ∧ bs.length = l.length := by
  intro l
  induction l with
  | nil => exact fun _ => ⟨[], rfl, rfl⟩
  | cons a l ih =>
    intro h
    obtain ⟨b, hb⟩ := h a (by simp)
    obtain ⟨bs, hbs, hlen⟩ := ih (fun x hx => h x (by simp [hx]))
    exact ⟨b :: bs, by rw [exceptMapList, hb, hbs], by simp [hlen]⟩

/-- Indexwise characterisation of a successful `exceptMapList`: the result at
any index is the successful image of the input at that index. -/
theorem exceptMapList_ok_get {α β : Type} (f : α → Except PErr β) :
    ∀ (l : List α) (res : List β), exceptMapList f l = .ok res →
      ∀ (j : ℕ) (a : α), l[j]? = some a → ∃ b, f a = .ok b ∧ res[j]? = some b := by
  intro l
  induction l with
  | nil => intro res _ j a hj; simp at hj

  | cons x l ih =>
    intro res h j a hj
    rw [exceptMapList] at h
    rcases hfx : f x with e | b
    · rw [hfx] at h; cases h
    · rw [hfx] at h
      rcases hrest : exceptMapList f l with e | bs
      · rw [hrest] at h; cases h
      · rw [hrest] at h
        cases h
        cases j with
        | zero =>
          simp only [List.getElem?_cons_zero, Option.some_inj] at hj
          subst hj
          exact ⟨b, hfx, by simp⟩
        | succ j =>
          simp only [List.getElem?_cons_succ] at hj
          obtain ⟨b2, hb2, hres2⟩ := ih bs hrest j a hj
          exact ⟨b2, hb2, by simpa using hres2⟩

/-- Success of `exceptFoldList`: if every step succeeds from every state, the
whole fold succeeds. -/
theorem exceptFoldList_ok_of_all {α β : Type} (f : β → α → Except PErr β) :
    ∀ (l : List α) (d : β), (∀ d2 a, a ∈ l → ∃ d3, f d2 a = .ok d3) →
      ∃ dF, exceptFoldList f d l = .ok dF := by
  intro l
  induction l with
  | nil => exact fun d _ => ⟨d, rfl⟩
  | cons a l ih =>
    intro d h
    obtain ⟨d3, hd3⟩ := h d a (by simp)
    obtain ⟨dF, hdF⟩ := ih d3 (fun d2 x hx => h d2 x (by simp [hx]))
    exact ⟨dF, by rw [exceptFoldList, hd3]; exact hdF⟩

/-- C7: the spectrum averager requires a non-empty input sequence: on the
empty list it fails immediately (the source's `spectra[0]` raises before any
computation), producing no partial result. -/
theorem c7_average_empty_fails (bin_width : Option ℚ) (filter_string : Option String) :
    average_spectra [] bin_width filter_string = .error .indexError := rfl

/-- C1 (counterexample): contrary to the claim, the fragment calculator on
sequence "MRFA" with charge 1 does not label the requested `y` ion at
position 2 as "y2": the source labels C-terminal ions with
`len(sequence) - pos + 1`, giving "y3". -/
theorem c1_counterexample :
    ¬ ((get_fragments "MRFA" ["y2"] 1).toOption.map (fun l => l.map (fun f => (f.seq, f.ion)))
        = some [("FA", "y2")]) := by decide

/-- C1 (amended): for sequence "MRFA" with charge 1, the requested ion "b2"
yields subsequence "MR" with label "b2", and the requested ion "y2" yields
subsequence "FA" with label "y3" (the C-terminal label is
`type + (sequence length - position + 1)`). -/
theorem c1_amended :
    (get_fragments "MRFA" ["b2"] 1).toOption.map (fun l => l.map (fun f => (f.seq, f.ion)))
        = some [("MR", "b2")] ∧
    (get_fragments "MRFA" ["y2"] 1).toOption.map (fun l => l.map (fun f => (f.seq, f.ion)))
        = some [("FA", "y3")] := by decide

/-- C8 (counterexample): contrary to the claim, the fragment calculator does
not fail when the requested position exceeds the sequence length or the
charge is non-positive: for sequence "MRFA" (4 residues) the request "b9" at
charge -1 succeeds, the slice clamping the subsequence to the whole
sequence, and a request at charge 0 also succeeds (the source skips the
charge division on a falsy charge). -/
theorem c8_counterexample :
    (get_fragments "MRFA" ["b9"] (-1)).toOption.map (fun l => l.map (fun f => f.seq))
        = some ["MRFA"] ∧
    (get_fragments "MRFA" ["y2"] 0).toOption.isSome = true := by decide

/-- Elementwise product of two slices over the same index list. -/
theorem zipWith_mul_map (g h : ℕ → ℚ) :
    ∀ (l : List ℕ), List.zipWith (· * ·) (l.map g) (l.map h) = l.map (fun k => g k * h k) := by
  intro l
  induction l with
  | nil => rfl
  | cons a l ih => simp [ih]

/-- Shared example scan metadata for the concrete spectra below. -/
def exMeta : ScanMeta :=
  { scan_start_time := 0, filter_string := "orig", scan_window_lower := 0, scan_window_upper := 2 }

/-- The spec's centroid-mode example spectrum with intensities
`[1, 10, 2, 10, 1]`. -/
def exC6 : Spectrum := { mz := [1, 2, 3, 4, 5], intensity := [1, 10, 2, 10, 1], scanList := exMeta }
/-- C6: in centroid mode, peak detection returns exactly the indices whose
intensity strictly exceeds `threshold/100` times the maximum intensity `m`
of the spectrum — every such index and no other, with no merging of
adjacent points. -/
theorem c6_centroid_mode (sp : Spectrum) (threshold distance prominence width : ℚ)
    (m : ℚ) (hmax : np_max sp.intensity = some m) :
    ∃ pks, peak_detection sp threshold distance prominence width true = .ok (.centroided pks) ∧
      ∀ i, i ∈ pks ↔ i < sp.intensity.length ∧ m * (threshold / 100) < sp.intensity.getD i 0 := by
  refine ⟨(List.range sp.intensity.length).filter
    (fun i => m * (threshold / 100) < sp.intensity.getD i 0), ?_, ?_⟩
  · rw [peak_detection, hmax]
    rfl
  · intro i
    simp [List.mem_filter, List.mem_range]

/-- C6 (witness): on intensities `[1, 10, 2, 10, 1]` with threshold 50 the
detector returns exactly the indices 1 and 3, and the characterisation of
`c6_centroid_mode` holds there with maximum intensity 10. -/
theorem c6_witness :
    (peak_detection exC6 50 4 (4 / 5) 2 true = .ok (.centroided [1, 3])) ∧
    (∃ pks, peak_detection exC6 50 4 (4 / 5) 2 true = .ok (.centroided pks) ∧
      ∀ i, i ∈ pks ↔ i < exC6.intensity.length ∧
        10 * (50 / 100) < exC6.intensity.getD i 0) :=
  ⟨by
    norm_num [peak_detection, np_max, exC6, exMeta, max_def, List.range, List.range.loop,
      List.filter],
    c6_centroid_mode exC6 50 4 (4 / 5) 2 10
      (by norm_num [np_max, exC6, exMeta, max_def])⟩

/-- C5: every successfully computed centroid equals the sum of m/z times
intensity over the inclusive index range `[left_bound, right_bound]` (the
`int()`-truncated `left_ips`/`right_ips` entries), divided by the intensity
sum over the same range; when that intensity sum is zero the entry is the
sentinel `none` (modelling numpy's non-raising NaN) instead of an
exception. -/
theorem c5_centroid_formula (sp : Spectrum) (peaks : List ℕ) (props : FPProps)
    (cs : List (Option ℚ)) (i : ℕ)
    (hok : return_centroid sp peaks props = .ok cs) (hi : i < peaks.length) :
    ∃ lip rip, props.left_ips[i]? = some lip ∧ props.right_ips[i]? = some rip ∧
      cs[i]? = some (
        let l := (pyInt lip).toNat
        let r := (pyInt rip).toNat
        let den := ((idxRange l r).map (fun k => sp.intensity.getD k 0)).sum
        let num := ((idxRange l r).map (fun k => sp.mz.getD k 0 * sp.intensity.getD k 0)).sum
        if den = 0 then none else some (num / den)) := by
  have hr : (List.range peaks.length)[i]? = some i := by
    simp [List.getElem?_range hi]
  obtain ⟨v, hv, hcs⟩ := exceptMapList_ok_get (centroidAt sp props)
    (List.range peaks.length) cs hok i i hr
  rcases hlip : props.left_ips[i]? with _ | lip
  · rw [centroidAt, hlip] at hv; cases hv
  rcases hrip : props.right_ips[i]? with _ | rip
  · rw [centroidAt, hlip, hrip] at hv; cases hv
  refine ⟨lip, rip, rfl, rfl, ?_⟩
  simp only [centroidAt, hlip, hrip] at hv
  split at hv
  · cases hv
    rw [hcs, zipWith_mul_map]
  · cases hv

/-- The spec's symmetric triangular example spectrum for the centroid
calculator. -/
def exC5 : Spectrum := { mz := [1, 2, 3], intensity := [0, 10, 0], scanList := exMeta }

/-- Property record carrying the example bounds `[0, 2]`. -/
def exProps : FPProps :=
  { peak_heights := [], prominences := [], left_bases := [], right_bases := [],
    widths := [], width_heights := [], left_ips := [0], right_ips := [2] }

/-- C5 (witness): on m/z `[1, 2, 3]`, intensity `[0, 10, 0]` bounded by
`[0, 2]`, the computed centroid list is `[some 2]` and the formula of
`c5_centroid_formula` holds at index 0 — the weighted mean is 2.0. -/
theorem c5_witness :
    ∃ lip rip, exProps.left_ips[0]? = some lip ∧ exProps.right_ips[0]? = some rip ∧
      ([some (2 : ℚ)] : List (Option ℚ))[0]? = some (
        let l := (pyInt lip).toNat
        let r := (pyInt rip).toNat
        let den := ((idxRange l r).map (fun k => exC5.intensity.getD k 0)).sum
        let num := ((idxRange l r).map (fun k => exC5.mz.getD k 0 * exC5.intensity.getD k 0)).sum
        if den = 0 then none else some (num / den)) :=
  c5_centroid_formula exC5 [1] exProps [some 2] 0
    (by
      norm_num [return_centroid, centroidAt, exC5, exProps, exMeta, pyInt, idxRange,
        List.range, List.range.loop, List.range', exceptMapList, List.getD, List.zipWith])
    (by decide)

/-- Every positional read of an all-zero intensity array yields 0. -/
theorem getD_zero_of_all_zero {x : List ℚ} (hz : ∀ v ∈ x, v = 0) (k : ℕ) : x.getD k 0 = 0 := by
  rcases lt_or_ge k x.length with h | h
  · rw [List.getD_eq_getElem x 0 h]
    exact hz _ (List.getElem_mem h)
  · exact List.getD_eq_default x 0 h

/-- Folding `max` from 0 over an all-zero list stays 0. -/
theorem foldl_max_all_zero : ∀ (l : List ℚ), (∀ v ∈ l, v = 0) → l.foldl max 0 = 0 := by
  intro l
  induction l with
  | nil => exact fun _ => rfl
  | cons a l ih =>
    intro h
    have ha : a = 0 := h a (by simp)
    simp only [List.foldl_cons, ha, max_self]
    exact ih (fun v hv => h v (by simp [hv]))

/-- The numpy maximum of a non-empty all-zero array is 0. -/
theorem np_max_all_zero {x : List ℚ} (hne : x ≠ []) (hz : ∀ v ∈ x, v = 0) :
    np_max x = some 0 := by
  cases x with
  | nil => exact absurd rfl hne
  | cons a as =>
    have ha : a = 0 := hz a (by simp)
    rw [np_max, ha, foldl_max_all_zero as (fun v hv => hz v (by simp [hv]))]

/-- On an all-zero signal the local-maximum scan records nothing: the strict
ascent test never fires. -/
theorem lmGo_all_zero {x : List ℚ} (hz : ∀ v ∈ x, v = 0) (iMax : ℕ) :
    ∀ (f i : ℕ), lmGo x iMax f i = [] := by
  intro f
  induction f with
  | zero => exact fun _ => rfl
  | succ f ih =>
    intro i
    simp only [lmGo, getD_zero_of_all_zero hz, lt_self_iff_false, if_false, ih, ite_self]

/-- An all-zero signal has no local maxima. -/
theorem local_maxima_all_zero {x : List ℚ} (hz : ∀ v ∈ x, v = 0) :
    local_maxima_1d x = [] := by
  rw [local_maxima_1d]
  exact lmGo_all_zero hz _ _ _

/-- Empty peak-detection input spectrum. -/
def exC9e : Spectrum := { mz := [], intensity := [], scanList := exMeta }

/-- C9 (counterexample): contrary to the claim, peak detection on an empty
intensity array does not return an empty peak set — `max()` of the empty
array raises, in centroid mode and in profile mode alike. -/
theorem c9_counterexample :
    peak_detection exC9e 5 4 (4 / 5) 2 true = .error .valueError ∧
    peak_detection exC9e 5 4 (4 / 5) 2 false = .error .valueError := ⟨rfl, rfl⟩

/-- C9 (amended): for every spectrum whose intensity array is non-empty and
all-zero, peak detection returns an empty peak set in both modes and raises
no error (the profile mode's property arrays are all empty as well); an
empty intensity array instead raises at the `max` reduction. -/
theorem c9_all_zero_empty (sp : Spectrum) (threshold distance prominence width : ℚ)
    (hne : sp.intensity ≠ []) (hz : ∀ v ∈ sp.intensity, v = 0) (hd : 1 ≤ distance) :
    peak_detection sp threshold distance prominence width true = .ok (.centroided []) ∧
    peak_detection sp threshold distance prominence width false =
      .ok (.profile [] ⟨[], [], [], [], [], [], [], []⟩) := by
  have hmax : np_max sp.intensity = some 0 := np_max_all_zero hne hz
  constructor
  · have hfilter : (List.range sp.intensity.length).filter
        (fun i => decide ((0 : ℚ) * (threshold / 100) < sp.intensity.getD i 0)) = [] := by
      rw [List.filter_eq_nil_iff]
      intro a _
      simp only [decide_eq_true_eq, not_lt, getD_zero_of_all_zero hz, zero_mul, le_refl]
    rw [peak_detection, hmax]
    exact congrArg (fun l => Except.ok (DetectResult.centroided l)) hfilter
  · have hfp : find_peaks sp.intensity (0 * (threshold / 100)) prominence width distance =
        .ok ([], ⟨[], [], [], [], [], [], [], []⟩) := by
      rw [find_peaks, if_neg (not_lt.mpr hd)]
      simp [local_maxima_all_zero hz, select_by_peak_distance, filterByKeep,
        List.insertionSort]
    rw [peak_detection, hmax]
    simp only [Bool.false_eq_true, if_false]
    rw [hfp]

/-- All-zero example spectrum for the amended C9. -/
def exC9z : Spectrum := { mz := [1, 2, 3], intensity := [0, 0, 0], scanList := exMeta }

/-- C9 (witness): on the all-zero intensities `[0, 0, 0]` with the default
parameters, both detection modes return the empty peak set. -/
theorem c9_witness :
    peak_detection exC9z 5 4 (4 / 5) 2 true = .ok (.centroided []) ∧
    peak_detection exC9z 5 4 (4 / 5) 2 false =
      .ok (.profile [] ⟨[], [], [], [], [], [], [], []⟩) :=
  c9_all_zero_empty exC9z 5 4 (4 / 5) 2 (by decide) (by decide) (by norm_num)

/-- Positional read of the pointwise sum of two equal-length arrays. -/
theorem getD_zipWith_add (x y : List ℚ) (h : y.length = x.length) (i : ℕ) :
    (List.zipWith (· + ·) x y).getD i 0 = x.getD i 0 + y.getD i 0 := by
  rcases lt_or_ge i x.length with hlt | hge
  · have hzl : i < (List.zipWith (· + ·) x y).length := by
      rw [List.length_zipWith, h, min_self]
      exact hlt
    rw [List.getD_eq_getElem _ _ hzl, List.getElem_zipWith,
      List.getD_eq_getElem _ _ hlt, List.getD_eq_getElem _ _ (h ▸ hlt)]
  · have h3 : (List.zipWith (· + ·) x y).length ≤ i := by
      rw [List.length_zipWith]
      exact le_trans (min_le_left _ _) hge
    rw [List.getD_eq_default _ _ h3, List.getD_eq_default _ _ hge,
      List.getD_eq_default _ _ (h ▸ hge)]
    simp

/-- The accumulation loop of the averager preserves the grid length. -/
theorem length_foldl_zipWith :
    ∀ (L : List (List ℚ)) (init : List ℚ), (∀ l ∈ L, l.length = init.length) →
      (L.foldl (fun acc l => List.zipWith (· + ·) acc l) init).length = init.length := by
  intro L
  induction L with
  | nil => exact fun _ _ => rfl
  | cons a L ih =>
    intro init h
    rw [List.foldl_cons]
    have ha : a.length = init.length := h a (by simp)
    have hlen : (List.zipWith (· + ·) init a).length = init.length := by
      rw [List.length_zipWith, ha, min_self]
    rw [ih _ (fun l hl => by rw [hlen]; exact h l (List.mem_cons_of_mem _ hl)), hlen]

/-- Each bin of the averager's accumulation loop holds the initial value plus
the sum of the per-array contributions at that bin. -/
theorem foldl_zipWith_add_getD :
    ∀ (L : List (List ℚ)) (init : List ℚ), (∀ l ∈ L, l.length = init.length) → ∀ (i : ℕ),
      (L.foldl (fun acc l => List.zipWith (· + ·) acc l) init).getD i 0 =
        init.getD i 0 + (L.map (fun l => l.getD i 0)).sum := by
  intro L
  induction L with
  | nil => intro init _ i; simp
  | cons a L ih =>
    intro init h i
    rw [List.foldl_cons]
    have ha : a.length = init.length := h a (by simp)
    have hlen : (List.zipWith (· + ·) init a).length = init.length := by
      rw [List.length_zipWith, ha, min_self]
    rw [ih _ (fun l hl => by rw [hlen]; exact h l (List.mem_cons_of_mem _ hl)) i,
      getD_zipWith_add init a ha i]
    simp [add_assoc]

/-- Positional read of a constant-zero array built by `map`. -/
theorem getD_map_zero {α : Type} (l : List α) (i : ℕ) :
    (l.map (fun _ => (0 : ℚ))).getD i 0 = 0 := by
  rcases lt_or_ge i l.length with hlt | hge
  · rw [List.getD_eq_getElem _ _ (by simpa using hlt), List.getElem_map]
  · exact List.getD_eq_default _ _ (by simpa using hge)

/-- Positional read of a pointwise division. -/
theorem getD_map_div (l : List ℚ) (c : ℚ) (i : ℕ) (hi : i < l.length) :
    (l.map (fun v => v / c)).getD i 0 = l.getD i 0 / c := by
  rw [List.getD_eq_getElem _ _ (by simpa using hi), List.getElem_map,
    List.getD_eq_getElem _ _ hi]

/-- In-bounds positional read through a `map`. -/
theorem getD_map_general {α : Type} (f : α → ℚ) (l : List α) (d : α) (i : ℕ)
    (hi : i < l.length) : (l.map f).getD i 0 = f (l.getD i d) := by
  rw [List.getD_eq_getElem _ _ (by simpa using hi), List.getElem_map,
    List.getD_eq_getElem _ _ hi]

/-- C3: whenever the averager succeeds, its output intensity at every grid
bin equals the sum over all input spectra of that spectrum's intensity
linearly interpolated at the bin's m/z (0-filled outside the spectrum's own
m/z range), divided by the number of input spectra — not by the count of
nonzero contributors. -/
theorem c3_average_mean (spectra : List Spectrum) (bin_width : Option ℚ)
    (filter_string : Option String) (avg : Spectrum) (post : List Spectrum)
    (hok : average_spectra spectra bin_width filter_string = .ok (avg, post))
    (i : ℕ) (hi : i < avg.mz.length) :
    avg.intensity.getD i 0 =
      (spectra.map (fun s => np_interp (avg.mz.getD i 0) (s.mz.zip s.intensity))).sum
        / ((spectra.length : ℚ)) := by
  cases spectra with
  | nil => simp [average_spectra] at hok
  | cons s0 rest =>
    simp only [average_spectra] at hok
    split at hok
    · cases hok
    · split at hok
      · cases hok
      · injection hok with hpair
        injection hpair with h1 h2
        subst h1
        simp only [Spectrum.mk.injEq] at hi ⊢
        set grid := np_arange s0.scanList.scan_window_lower s0.scanList.scan_window_upper _
          with hgrid
        have hi2 : i < grid.length := hi
        set L := (s0 :: rest).map
          (fun scan => grid.map (fun q => np_interp q (scan.mz.zip scan.intensity))) with hL
        have hfold : (s0 :: rest).foldl
            (fun acc scan => List.zipWith (· + ·) acc
              (grid.map (fun q => np_interp q (scan.mz.zip scan.intensity))))
            (grid.map (fun _ => (0 : ℚ)))
            = L.foldl (fun acc l => List.zipWith (· + ·) acc l)
                (grid.map (fun _ => (0 : ℚ))) := by
          rw [hL, List.foldl_map]
        have hlens : ∀ l ∈ L, l.length = (grid.map (fun _ => (0 : ℚ))).length := by
          intro l hl
          rw [hL] at hl
          obtain ⟨scan, _, rfl⟩ := List.mem_map.mp hl
          simp
        rw [hfold]
        have hmlen : (L.foldl (fun acc l => List.zipWith (· + ·) acc l)
            (grid.map (fun _ => (0 : ℚ)))).length = grid.length := by
          rw [length_foldl_zipWith L _ hlens]
          simp
        rw [getD_map_div _ _ i (by rw [hmlen]; exact hi2),
          foldl_zipWith_add_getD L _ hlens i, getD_map_zero, zero_add]
        congr 1
        rw [hL, List.map_map]
        apply congrArg List.sum
        apply List.map_congr_left
        intro s _
        simp only [Function.comp]
        exact getD_map_general _ grid 0 i hi2

/-- First concrete input spectrum for the averager examples. -/
def c3s0 : Spectrum := { mz := [0, 1], intensity := [1, 2], scanList := exMeta }

/-- Second concrete input spectrum for the averager examples. -/
def c3s1 : Spectrum :=
  { mz := [0, 1], intensity := [3, 4], scanList := { exMeta with filter_string := "orig2" } }

/-- The scan metadata after the averager has written its label. -/
def c3meta : ScanMeta := { exMeta with filter_string := avgFilterString 0 0 none }

/-- The averaged spectrum of `[c3s0, c3s1]`: grid `[0, 1]`, mean intensities
`[(1+3)/2, (2+4)/2] = [2, 3]`. -/
def c3avg : Spectrum := { mz := [0, 1], intensity := [2, 3], scanList := c3meta }

/-- The post-call value of the averager's input list: the head's nested
metadata carries the new filter string. -/
def c3post : List Spectrum := [{ c3s0 with scanList := c3meta }, c3s1]

/-- Concrete evaluation of the averager on `[c3s0, c3s1]`. -/
theorem average_c3_eval : average_spectra [c3s0, c3s1] none none = .ok (c3avg, c3post) := by
  norm_num [average_spectra, c3s0, c3s1, c3avg, c3post, c3meta, exMeta, np_unique,
    np_min_diff, np_arange, List.insertionSort, List.orderedInsert, List.destutter,
    List.destutter', List.zipWith, List.foldl, np_interp, npInterpGo, Int.ceil_ofNat,
    List.range, List.range.loop]

/-- C3 (witness): at bin 0 of the averaged spectrum of `[c3s0, c3s1]`, the
output intensity 2 is the sum of the two interpolated intensities divided by
the spectrum count. -/
theorem c3_witness :
    c3avg.intensity.getD 0 0 =
      (([c3s0, c3s1].map (fun s => np_interp (c3avg.mz.getD 0 0) (s.mz.zip s.intensity))).sum)
        / ((([c3s0, c3s1] : List Spectrum).length : ℚ)) :=
  c3_average_mean [c3s0, c3s1] none none c3avg c3post average_c3_eval 0 (by decide)

/-- C10: the averager does not leave its inputs unchanged. On the concrete
input `[c3s0, c3s1]` the call succeeds, yet the post-call value of the input
list differs from its pre-call value: the first spectrum's nested filter
string has been overwritten with the averager's label (the source's shallow
`spectra[0].copy()` shares the nested `scanList` object, and the label
assignment writes through it). -/
theorem c10_input_mutated :
    average_spectra [c3s0, c3s1] none none = .ok (c3avg, c3post) ∧
    c3post.map (fun s => s.scanList.filter_string) ≠
      [c3s0, c3s1].map (fun s => s.scanList.filter_string) := by
  refine ⟨average_c3_eval, ?_⟩
  intro h
  have h0 : avgFilterString 0 0 none = "orig" := by
    have h1 := congrArg (fun l => l.headI) h
    simpa [c3post, c3s0, c3s1, c3meta, exMeta] using h1
  have hfmt : fmt2 0 = "0.00" := by
    norm_num [fmt2]
    decide
  rw [avgFilterString, hfmt] at h0
  exact absurd h0 (by decide)

/-- The per-bin target loop succeeds when every requested target lies within
the closed span of the known energies. -/
theorem targetLoop_ok_of_inside (energies intensities : List ℚ) (e0 eL : ℚ)
    (h0 : energies.head? = some e0) (hL : energies.getLast? = some eL) :
    ∀ (ts : List ℚ) (d : List (ℚ × List ℚ)), (∀ t ∈ ts, ¬(t < e0 ∨ eL < t)) →
      ∃ d2, targetLoop energies intensities d ts = .ok d2 := by
  intro ts
  induction ts with
  | nil => exact fun d _ => ⟨d, rfl⟩
  | cons t ts ih =>
    intro d hgood
    obtain ⟨d2, hd2⟩ := ih (dictAppend d t (np_interp t (energies.zip intensities)))
      (fun u hu => hgood u (by simp [hu]))
    refine ⟨d2, ?_⟩
    simp only [targetLoop, h0, hL]
    rw [if_neg (hgood t (by simp))]
    exact hd2

/-- The per-bin target loop raises `ValueError` as soon as some requested
target lies strictly outside the span of the known energies. -/
theorem targetLoop_error_of_bad (energies intensities : List ℚ) (e0 eL : ℚ)
    (h0 : energies.head? = some e0) (hL : energies.getLast? = some eL) :
    ∀ (ts : List ℚ) (d : List (ℚ × List ℚ)), (∃ t ∈ ts, t < e0 ∨ eL < t) →
      targetLoop energies intensities d ts = .error .valueError := by
  intro ts
  induction ts with
  | nil => intro d h; simp at h
  | cons t ts ih =>
    intro d h
    simp only [targetLoop, h0, hL]
    by_cases hb : t < e0 ∨ eL < t
    · rw [if_pos hb]
    · rw [if_neg hb]
      apply ih
      obtain ⟨u, hu, hbu⟩ := h
      rcases List.mem_cons.mp hu with rfl | hu2
      · exact absurd hbu hb
      · exact ⟨u, hu2, hbu⟩

/-- The intensity gathering across aligned spectra succeeds whenever every
needed index is in range. -/
theorem buildIntensities_ok (arrays : List (List ℚ)) (nE i : ℕ)
    (h : ∀ j, j < nE → ∃ arr, arrays[j]? = some arr ∧ i < arr.length) :
    ∃ ints, buildIntensities arrays nE i = .ok ints := by
  obtain ⟨bs, hbs, _⟩ := exceptMapList_ok_of_all
    (fun j =>
      match arrays[j]? with
      | none => .error .indexError
      | some arr =>
        match arr[i]? with
        | none => .error .indexError
        | some v => .ok v)
    (List.range nE)
    (by
      intro j hj
      obtain ⟨arr, harr, hlen⟩ := h j (List.mem_range.mp hj)
      refine ⟨arr[i], ?_⟩
      simp only [harr, List.getElem?_eq_getElem hlen])
  exact ⟨bs, hbs⟩

/-- C4: under the interpolator's documented preconditions (aligned non-empty
intensity arrays, at least as many spectra as known energies, a non-empty
ascending energy list — whose head is then its minimum and whose last entry
is its maximum), the energy interpolator raises the out-of-range `ValueError`
exactly when some requested target energy lies strictly below the least
known energy or strictly above the greatest; targets inside the span never
produce it. -/
theorem c4_out_of_range (spectra : List Spectrum) (targets energies : List ℚ)
    (arr0 : List ℚ) (h0 : (spectra.map (fun s => s.intensity)).head? = some arr0)
    (h0ne : arr0 ≠ [])
    (hene : energies ≠ []) (_hsorted : energies.Pairwise (· ≤ ·))
    (hcount : energies.length ≤ spectra.length)
    (halign : ∀ s ∈ spectra, s.intensity.length = arr0.length) :
    interpolate_spectra spectra targets energies = .error .valueError ↔
      ∃ t ∈ targets, t < energies.head hene ∨ energies.getLast hene < t := by
  have hunf : interpolate_spectra spectra targets energies =
      exceptFoldList
        (fun d i =>
          match buildIntensities (spectra.map (fun s => s.intensity)) energies.length i with
          | .error e => .error e
          | .ok intensities => targetLoop energies intensities d targets)
        (targets.eraseDups.map (fun t => (t, ([] : List ℚ))))
        (List.range arr0.length) := by
    rw [interpolate_spectra.eq_def, h0]
  have hbuild : ∀ i, i < arr0.length →
      ∀ j, j < energies.length →
        ∃ arr, (spectra.map (fun s => s.intensity))[j]? = some arr ∧ i < arr.length := by
    intro i hi j hj
    have hjs : j < spectra.length := lt_of_lt_of_le hj hcount
    refine ⟨spectra[j].intensity, ?_, ?_⟩
    · rw [List.getElem?_map, List.getElem?_eq_getElem hjs]
      rfl
    · rw [halign spectra[j] (List.getElem_mem hjs)]
      exact hi
  have hh : energies.head? = some (energies.head hene) := List.head?_eq_head hene
  have hl : energies.getLast? = some (energies.getLast hene) := List.getLast?_eq_getLast _ hene
  rw [hunf]
  constructor
  · intro herr
    by_contra hno
    push_neg at hno
    obtain ⟨dF, hdF⟩ := exceptFoldList_ok_of_all
      (fun d i =>
        match buildIntensities (spectra.map (fun s => s.intensity)) energies.length i with
        | .error e => .error e
        | .ok intensities => targetLoop energies intensities d targets)
      (List.range arr0.length)
      (targets.eraseDups.map (fun t => (t, ([] : List ℚ))))
      (by
        intro d2 a ha
        obtain ⟨ints, hints⟩ := buildIntensities_ok _ energies.length a
          (hbuild a (List.mem_range.mp ha))
        obtain ⟨d3, hd3⟩ := targetLoop_ok_of_inside energies ints _ _ hh hl targets d2
          (by
            intro t ht
            rcases hno t ht with ⟨hn1, hn2⟩
            rw [not_or]
            exact ⟨not_lt.mpr hn1, not_lt.mpr hn2⟩)
        refine ⟨d3, ?_⟩
        simp only [hints]
        exact hd3)
    rw [hdF] at herr
    cases herr
  · rintro ⟨t, ht, hbad⟩
    have hn : 0 < arr0.length := List.length_pos.mpr h0ne
    obtain ⟨m, hm⟩ : ∃ m, arr0.length = m + 1 := ⟨arr0.length - 1, by omega⟩
    rw [hm, List.range_succ_eq_map]
    obtain ⟨ints, hints⟩ := buildIntensities_ok _ energies.length 0 (hbuild 0 hn)
    simp only [exceptFoldList, hints]
    rw [targetLoop_error_of_bad energies ints _ _ hh hl targets _ ⟨t, ht, hbad⟩]

/-- A minimal aligned spectrum used by the interpolator example. -/
def c4spec : Spectrum := { mz := [1], intensity := [1], scanList := exMeta }

/-- C4 (witness): with the known energies `[0, 5, 10, 15, 20]` and five
aligned spectra, requesting the target energy 25 — strictly above the
maximum known energy — raises the out-of-range `ValueError`. -/
theorem c4_witness :
    interpolate_spectra [c4spec, c4spec, c4spec, c4spec, c4spec] [25] [0, 5, 10, 15, 20]
      = .error .valueError :=
  (c4_out_of_range [c4spec, c4spec, c4spec, c4spec, c4spec] [25] [0, 5, 10, 15, 20]
    [1] rfl (by decide) (by decide) (by decide) (by decide) (by decide)).mpr
    ⟨25, by decide, Or.inr (by decide)⟩

/-- Shape invariant of a parsed modX token: a non-empty character list whose
leading characters are lowercase modification letters and whose last
character is an uppercase residue letter. -/
def tokWF (t : String) : Prop :=
  t.data ≠ [] ∧ (∀ c ∈ t.data.dropLast, c.isLower = true) ∧
    ∃ u, t.data.getLast? = some u ∧ u.isUpper = true ∧ u.isLower = false

/-- Every token produced by the tokenizer loop satisfies the token shape
invariant (the accumulator holding lowercase characters only). -/
theorem parseGo_wf :
    ∀ (cs acc : List Char) (tks : List String), (∀ c ∈ acc, c.isLower = true) →
      parseGo acc cs = .ok tks → ∀ t ∈ tks, tokWF t := by
  intro cs
  induction cs with
  | nil =>
    intro acc tks hacc h t ht
    rw [parseGo] at h
    split at h
    · cases h
      simp at ht
    · cases h
  | cons c cs ih =>
    intro acc tks hacc h t ht
    rw [parseGo] at h
    split at h
    · exact ih (acc ++ [c]) tks
        (by
          intro x hx
          rcases List.mem_append.mp hx with hx2 | hx2
          · exact hacc x hx2
          · simp at hx2
            subst hx2
            assumption) h t ht
    · split at h
      · rcases hrec : parseGo [] cs with e | toks
        · rw [hrec] at h
          cases h
        · rw [hrec] at h
          cases h
          rcases List.mem_cons.mp ht with rfl | ht2
          · refine ⟨by simp, ?_, c, ?_, ?_, ?_⟩
            · intro x hx
              rw [show (String.mk (acc ++ [c])).data = acc ++ [c] from rfl,
                List.dropLast_concat] at hx
              exact hacc x hx
            · rw [show (String.mk (acc ++ [c])).data = acc ++ [c] from rfl]
              exact List.getLast?_concat _
            · assumption
            · simp_all
          · exact ih [] toks (by simp) hrec t ht2
      · cases h

/-- Consuming one well-formed token at the head of the character stream: the
tokenizer emits exactly that token and continues on the remainder. -/
theorem parseGo_token :
    ∀ (lows : List Char) (u : Char) (cs acc : List Char),
      (∀ c ∈ lows, c.isLower = true) → u.isUpper = true → u.isLower = false →
      parseGo acc (lows ++ u :: cs) =
        match parseGo [] cs with
        | .ok toks => .ok (String.mk (acc ++ lows ++ [u]) :: toks)
        | .error e => .error e := by
  intro lows
  induction lows with
  | nil =>
    intro u cs acc _ hu hul
    rw [List.nil_append, parseGo, hul]
    simp only [Bool.false_eq_true, if_false, hu, if_true, List.append_nil]
  | cons c lows ih =>
    intro u cs acc hlows hu hul
    have hc : c.isLower = true := hlows c (by simp)
    rw [List.cons_append, parseGo, hc, if_pos rfl,
      ih u cs (acc ++ [c]) (fun x hx => hlows x (by simp [hx])) hu hul,
      show (acc ++ [c]) ++ lows = acc ++ (c :: lows) from by simp]

/-- Round trip: re-tokenizing the concatenation of well-formed tokens yields
those tokens back. -/
theorem parseGo_join :
    ∀ (tks : List String), (∀ t ∈ tks, tokWF t) →
      parseGo [] ((tks.map String.data).flatten) = .ok tks := by
  intro tks
  induction tks with
  | nil => exact fun _ => rfl
  | cons t tks ih =>
    intro hwf
    obtain ⟨hne, hlows, u, hlast, hu, hul⟩ := hwf t (by simp)
    have hgl : t.data.getLast hne = u := by
      have h2 := List.getLast?_eq_getLast t.data hne
      rw [hlast] at h2
      exact (Option.some_inj.mp h2).symm
    have hdecomp : t.data.dropLast ++ [u] = t.data := by
      rw [← hgl]
      exact List.dropLast_append_getLast hne
    show parseGo [] (t.data ++ (tks.map String.data).flatten) = .ok (t :: tks)
    rw [← hdecomp, List.append_assoc, List.singleton_append,
      parseGo_token t.data.dropLast u _ [] hlows hu hul,
      ih (fun x hx => hwf x (by simp [hx])), List.nil_append, hdecomp]

/-- Every token of a successful `parse` satisfies the token shape invariant. -/
theorem parse_wf (s : String) (tks : List String) (h : parse s = .ok tks) :
    ∀ t ∈ tks, tokWF t := by
  rw [parse] at h
  split at h
  · cases h
  · exact parseGo_wf s.data [] tks (by simp) h

/-- Round trip through the joined string: parsing `''.join(tks)` of a
non-empty well-formed token list yields the tokens back. -/
theorem parse_pyJoin (tks : List String) (hne : tks ≠ []) (hwf : ∀ t ∈ tks, tokWF t) :
    parse (pyJoin tks) = .ok tks := by
  rw [parse, pyJoin]
  have hdata : (String.mk ((tks.map String.data).flatten)).data
      = (tks.map String.data).flatten := rfl
  rw [hdata]
  cases tks with
  | nil => exact absurd rfl hne
  | cons t tks =>
    obtain ⟨hne2, _, _⟩ := hwf t (by simp)
    have hflat : ((t :: tks).map String.data).flatten = t.data ++ (tks.map String.data).flatten :=
      rfl
    rw [if_neg (by
      rw [hflat]
      simp [List.isEmpty_iff, hne2])]
    exact parseGo_join (t :: tks) hwf

/-- The mass computation succeeds on the join of a non-empty well-formed
token list whose tokens all carry masses, for any supported ion type and any
charge (including zero and negative charges — the division is skipped at
charge 0 and raises nothing otherwise). -/
theorem fast_mass2_ok (tks : List String) (ty : Char) (charge : ℤ) (ic : ℚ)
    (hne : tks ≠ []) (hwf : ∀ t ∈ tks, tokWF t)
    (hmass : ∀ t ∈ tks, (tokenMass t).isSome) (hion : ionComp ty = some ic) :
    ∃ m, fast_mass2 (pyJoin tks) ty charge = .ok m := by
  obtain ⟨ms, hms, _⟩ := exceptMapList_ok_of_all
    (fun t =>
      match tokenMass t with
      | some m => Except.ok m
      | none => Except.error PErr.keyError) tks
    (by
      intro t ht
      obtain ⟨m, hm⟩ := Option.isSome_iff_exists.mp (hmass t ht)
      exact ⟨m, by simp only [hm]⟩)
  refine ⟨if charge = 0 then ms.sum + 2 * hMass + oMass + ic
      else (ms.sum + 2 * hMass + oMass + ic + protonMass * (charge : ℚ)) / (charge : ℚ), ?_⟩
  rw [fast_mass2.eq_def, parse_pyJoin tks hne hwf]
  simp only [hms, hion]

/-- Boolean well-formedness of a requested ion string as the script consumes
it: a leading type character among a/b/c/x/y/z and a parseable position of at
least 1. -/
def ionOKb (s : String) : Bool :=
  match s.data with
  | [] => false
  | c :: rest =>
    decide (c ∈ (['a', 'b', 'c', 'x', 'y', 'z'] : List Char)) &&
      (match pyIntParse rest with
       | some p => decide (1 ≤ p)
       | none => false)

/-- Processing a well-formed ion request against a non-empty parsed sequence
always succeeds, whatever the position (clamped by the slices) and whatever
the charge. -/
theorem processIon_ok (toks : List String) (charge : ℤ) (s : String)
    (hne : toks ≠ []) (hwf : ∀ t ∈ toks, tokWF t)
    (hmass : ∀ t ∈ toks, (tokenMass t).isSome)
    (hion : ionOKb s = true) : ∃ fr, processIon toks charge s = .ok fr := by
  have hlen0 : 0 < toks.length := List.length_pos.mpr hne
  rcases hsd : s.data with _ | ⟨c, rest⟩
  · rw [ionOKb, hsd] at hion
    cases hion
  · rw [ionOKb, hsd] at hion
    rw [Bool.and_eq_true] at hion
    obtain ⟨hc, hp⟩ := hion
    have hcm : c ∈ (['a', 'b', 'c', 'x', 'y', 'z'] : List Char) := of_decide_eq_true hc
    rcases hpp : pyIntParse rest with _ | p
    · rw [hpp] at hp
      cases hp
    · rw [hpp] at hp
      have hp1 : 1 ≤ p := of_decide_eq_true hp
      have hsub : ∀ t ∈ (if c = 'a' ∨ c = 'b' ∨ c = 'c' then pyTake toks p
          else pySliceFrom toks (-p)), t ∈ toks := by
        intro t ht
        split at ht
        · rw [pyTake] at ht
          split at ht
          · exact List.take_subset _ _ ht
          · exact List.take_subset _ _ ht
        · rw [pySliceFrom] at ht
          split at ht
          · exact List.drop_subset _ _ ht
          · exact List.drop_subset _ _ ht
      have hnet : (if c = 'a' ∨ c = 'b' ∨ c = 'c' then pyTake toks p
          else pySliceFrom toks (-p)) ≠ [] := by
        split
        · rw [pyTake, if_pos (by omega : (0 : ℤ) ≤ p)]
          refine List.length_pos.mp ?_
          rw [List.length_take]
          omega
        · rw [pySliceFrom, if_neg (by omega : ¬(0 : ℤ) ≤ -p)]
          refine List.length_pos.mp ?_
          rw [List.length_drop]
          omega
      obtain ⟨ic, hic⟩ : ∃ ic, ionComp c = some ic := by
        have h6 : c = 'a' ∨ c = 'b' ∨ c = 'c' ∨ c = 'x' ∨ c = 'y' ∨ c = 'z' := by
          simpa using hcm
        rcases h6 with rfl | rfl | rfl | rfl | rfl | rfl
        · exact ⟨_, rfl⟩
        · exact ⟨_, rfl⟩
        · exact ⟨_, rfl⟩
        · exact ⟨_, rfl⟩
        · exact ⟨_, rfl⟩
        · exact ⟨_, rfl⟩
      obtain ⟨m, hm⟩ := fast_mass2_ok _ c charge ic hnet
        (fun t ht => hwf t (hsub t ht)) (fun t ht => hmass t (hsub t ht)) hic
      refine ⟨⟨pyJoin (if c = 'a' ∨ c = 'b' ∨ c = 'c' then pyTake toks p
          else pySliceFrom toks (-p)),
        (if c = 'a' ∨ c = 'b' ∨ c = 'c' then String.mk [c] ++ toString p
          else if c = 'y' ∨ c = 'z' ∨ c = 'x' then
            String.mk [c] ++ toString ((toks.length : ℤ) - p + 1)
          else s),
        m, c⟩, ?_⟩
      rw [processIon.eq_def, hsd]
      simp only [hpp, hm]

/-- C8 (amended): the fragment calculator performs no position or charge
validation. For every valid sequence (non-empty, all residues carrying
masses) and every list of well-formed ion requests, the call succeeds with
one fragment per request for every charge — including charges ≤ 0 — and for
every position, positions beyond the sequence length being clamped by the
slices rather than rejected. -/
theorem c8_no_validation (seqStr : String) (rs : List String) (ions : List String) (charge : ℤ)
    (hparse : parse seqStr = .ok rs) (hne : rs ≠ [])
    (hmass : ∀ t ∈ rs, (tokenMass t).isSome)
    (hions : ∀ s ∈ ions, ionOKb s = true) :
    ∃ frags, get_fragments seqStr ions charge = .ok frags ∧ frags.length = ions.length := by
  have hwf := parse_wf seqStr rs hparse
  obtain ⟨frags, hfr, hlen⟩ := exceptMapList_ok_of_all (processIon rs charge) ions
    (fun s hs => processIon_ok rs charge s hne hwf hmass (hions s hs))
  refine ⟨frags, ?_, hlen⟩
  rw [get_fragments.eq_def, hparse]
  exact hfr

/-- C8 (witness): for "MRFA" at charge -3, the requests "a1" and "y9" — the
latter with a position far beyond the 4 residues — both succeed. -/
theorem c8_witness :
    ∃ frags, get_fragments "MRFA" ["a1", "y9"] (-3) = .ok frags ∧
      frags.length = (["a1", "y9"] : List String).length :=
  c8_no_validation "MRFA" ["M", "R", "F", "A"] ["a1", "y9"] (-3)
    (by decide) (by decide) (by decide) (by decide)

/-- C2: for every valid sequence and every well-formed requested ion of type
`ty` at position `pos` with `1 ≤ pos ≤ length`, the produced fragment's
subsequence is the first `pos` residues with label `ty ++ pos` when `ty` is
N-terminal (a/b/c), and the last `pos` residues with label
`ty ++ (length - pos + 1)` when `ty` is C-terminal (x/y/z). -/
theorem c2_fragment_positions (seqStr : String) (rs : List String) (s : String)
    (ty : Char) (rest : List Char) (charge : ℤ) (pos : ℕ)
    (hparse : parse seqStr = .ok rs)
    (hmass : ∀ t ∈ rs, (tokenMass t).isSome)
    (hs : s.data = ty :: rest)
    (hpos : pyIntParse rest = some ((pos : ℕ) : ℤ))
    (hp1 : 1 ≤ pos) (hple : pos ≤ rs.length)
    (hty : ty ∈ (['a', 'b', 'c', 'x', 'y', 'z'] : List Char)) :
    ∃ m, get_fragments seqStr [s] charge = .ok
      [⟨pyJoin (if ty ∈ (['a', 'b', 'c'] : List Char) then rs.take pos
          else rs.drop (rs.length - pos)),
        (if ty ∈ (['a', 'b', 'c'] : List Char) then String.mk [ty] ++ toString ((pos : ℤ))
          else String.mk [ty] ++ toString ((rs.length : ℤ) - (pos : ℤ) + 1)),
        m, ty⟩] := by
  have hwf := parse_wf seqStr rs hparse
  have hlen0 : 0 < rs.length := by omega
  have htake : pyTake rs ((pos : ℕ) : ℤ) = rs.take pos := by
    rw [pyTake, if_pos (Int.natCast_nonneg pos)]
    simp
  have hslice : pySliceFrom rs (-((pos : ℕ) : ℤ)) = rs.drop (rs.length - pos) := by
    rw [pySliceFrom, if_neg (by omega : ¬(0 : ℤ) ≤ -((pos : ℕ) : ℤ))]
    simp
  have htk_ne : rs.take pos ≠ [] := List.length_pos.mp (by rw [List.length_take]; omega)
  have hdr_ne : rs.drop (rs.length - pos) ≠ [] :=
    List.length_pos.mp (by rw [List.length_drop]; omega)
  have hsub_tk : ∀ t ∈ rs.take pos, t ∈ rs := fun t ht => List.take_subset _ _ ht
  have hsub_dr : ∀ t ∈ rs.drop (rs.length - pos), t ∈ rs := fun t ht => List.drop_subset _ _ ht
  have h6 : ty = 'a' ∨ ty = 'b' ∨ ty = 'c' ∨ ty = 'x' ∨ ty = 'y' ∨ ty = 'z' := by
    simpa using hty
  rcases h6 with rfl | rfl | rfl | rfl | rfl | rfl
  · obtain ⟨m, hm⟩ := fast_mass2_ok (rs.take pos) 'a' charge _ htk_ne
      (fun t ht => hwf t (hsub_tk t ht)) (fun t ht => hmass t (hsub_tk t ht)) rfl
    refine ⟨m, ?_⟩
    rw [get_fragments.eq_def, hparse]
    simp only [exceptMapList, processIon.eq_def, hs, hpos]
    simp [htake, hm]
  · obtain ⟨m, hm⟩ := fast_mass2_ok (rs.take pos) 'b' charge _ htk_ne
      (fun t ht => hwf t (hsub_tk t ht)) (fun t ht => hmass t (hsub_tk t ht)) rfl
    refine ⟨m, ?_⟩
    rw [get_fragments.eq_def, hparse]
    simp only [exceptMapList, processIon.eq_def, hs, hpos]
    simp [htake, hm]
  · obtain ⟨m, hm⟩ := fast_mass2_ok (rs.take pos) 'c' charge _ htk_ne
      (fun t ht => hwf t (hsub_tk t ht)) (fun t ht => hmass t (hsub_tk t ht)) rfl
    refine ⟨m, ?_⟩
    rw [get_fragments.eq_def, hparse]
    simp only [exceptMapList, processIon.eq_def, hs, hpos]
    simp [htake, hm]
  · obtain ⟨m, hm⟩ := fast_mass2_ok (rs.drop (rs.length - pos)) 'x' charge _ hdr_ne
      (fun t ht => hwf t (hsub_dr t ht)) (fun t ht => hmass t (hsub_dr t ht)) rfl
    refine ⟨m, ?_⟩
    rw [get_fragments.eq_def, hparse]
    simp only [exceptMapList, processIon.eq_def, hs, hpos]
    simp [hslice, hm]
  · obtain ⟨m, hm⟩ := fast_mass2_ok (rs.drop (rs.length - pos)) 'y' charge _ hdr_ne
      (fun t ht => hwf t (hsub_dr t ht)) (fun t ht => hmass t (hsub_dr t ht)) rfl
    refine ⟨m, ?_⟩
    rw [get_fragments.eq_def, hparse]
    simp only [exceptMapList, processIon.eq_def, hs, hpos]
    simp [hslice, hm]
  · obtain ⟨m, hm⟩ := fast_mass2_ok (rs.drop (rs.length - pos)) 'z' charge _ hdr_ne
      (fun t ht => hwf t (hsub_dr t ht)) (fun t ht => hmass t (hsub_dr t ht)) rfl
    refine ⟨m, ?_⟩
    rw [get_fragments.eq_def, hparse]
    simp only [exceptMapList, processIon.eq_def, hs, hpos]
    simp [hslice, hm]

/-- C2 (witness): for "MRFA" the request "b2" at charge 1 yields the first
two residues with label "b2", instantiating the positional characterisation
at an N-terminal ion. -/
theorem c2_witness :
    ∃ m, get_fragments "MRFA" ["b2"] 1 = .ok
      [⟨pyJoin (if 'b' ∈ (['a', 'b', 'c'] : List Char)
            then (["M", "R", "F", "A"] : List String).take 2
          else (["M", "R", "F", "A"] : List String).drop
            ((["M", "R", "F", "A"] : List String).length - 2)),
        (if 'b' ∈ (['a', 'b', 'c'] : List Char)
            then String.mk ['b'] ++ toString (((2 : ℕ) : ℤ))
          else String.mk ['b'] ++ toString
            (((["M", "R", "F", "A"] : List String).length : ℤ) - ((2 : ℕ) : ℤ) + 1)),
        m, 'b'⟩] :=
  c2_fragment_positions "MRFA" ["M", "R", "F", "A"] "b2" 'b' ['2'] 1 2
    (by decide) (by decide) (by decide) (by decide) (by decide) (by decide) (by decide)
